import Mathlib

/-!
Verification of the result-merging / database-aggregation engine of the
regression-test repository (`src/run_helpers/tdown_h.py` together with the
status vocabulary of `src/regression_constants.py`).

The Python code is shallowly embedded as follows:

* statuses are `String`s; the dictionary `TEST_STATUS_DICT` becomes the six
  lists below and `worseStatus` is translated directly, with a raised
  `LookupError` modelled as `none`;
* result-file text is modelled as a list of parsed `Block`s (one per
  brace-delimited model object found by the scanning loop of `addModels`);
  fields that the code extracts by substring search are carried as
  `Option String` values holding the raw sliced text, so that both the
  "marker absent" case (`find` returning `-1`) and the "present but not an
  integer" case (`int()` raising `ValueError`) are representable;
* Python dictionaries are association lists with in-place update (`dSet`),
  which preserves Python's insertion-order iteration semantics;
* every Python function that can raise an uncaught exception is modelled as
  returning an `Option`, with `none` standing for the exception.
-/

namespace Tdown

/-! ## Status vocabulary (regression_constants.TEST_STATUS_DICT) -/

def pass_status : List String := ["Pass", "Passed"]

def neutral_status : List String := ["Warning"]

def error_status : List String := ["Error", "Fail", "Failed", "Fatal"]

def off_status : List String := ["Off"]

def skipped_status : List String := ["Skipped"]

def wrong_os_status : List String := ["Wrong Embedded OS"]

/-- The flat ordering built at the top of `worseStatus`
(`skipped + off + wrong_os + pass + neutral + error`). -/
def possible_test_statuses : List String :=
  skipped_status ++ off_status ++ wrong_os_status ++ pass_status ++
    neutral_status ++ error_status

/-- Default status `test_status_dict['skipped_status'][0]`. -/
def skippedDefault : String := skipped_status.headI

/-- tdown_h.worseStatus.  Returns the argument that occurs later in the flat
status list; a raised `LookupError` (both arguments unrecognized) is modelled
as `none`. -/
def worseStatus (statOne statTwo : String) : Option String :=
  if statOne ∉ possible_test_statuses ∧ statTwo ∉ possible_test_statuses then
    none
  else if statOne ∉ possible_test_statuses then
    some statTwo
  else if statTwo ∉ possible_test_statuses then
    some statOne
  else
    let idxOne := possible_test_statuses.indexOf statOne
    let idxTwo := possible_test_statuses.indexOf statTwo
    some (if idxTwo < idxOne then statOne else statTwo)

/-! ## Status tiers

The specification groups the ten concrete tokens into six tiers, ordered
`[Skipped, Off, WrongOS, Pass, Warning, Error]`.  `tierIdx` maps a token to
the index of its tier in that order. -/

def statusTiers : List (List String) :=
  [skipped_status, off_status, wrong_os_status, pass_status, neutral_status,
    error_status]

def tierIdx (s : String) : Nat :=
  statusTiers.findIdx (fun t => t.contains s)

/-- One left-fold step through `worseStatus`; the accumulator is `none` once a
fold step has raised. -/
def statusFoldStep (acc : Option String) (s : String) : Option String :=
  acc.bind (fun a => worseStatus a s)

/-- Left-to-right fold of a status sequence through `worseStatus`, starting
from a given status. -/
def foldWorse (init : String) (l : List String) : Option String :=
  l.foldl statusFoldStep (some init)

/-! ## Python string primitives

`addModels`, `getIP` and friends work by `str.find` and slicing; these helpers
reproduce the Python semantics used by the code. -/

/-- Least index at which `needle` occurs in `hay`, if any. -/
def pyFindAux (hay needle : List Char) : Option Nat :=
  (List.range (hay.length + 1)).find? (fun i => needle.isPrefixOf (hay.drop i))

/-- Python `hay.find(needle)`: least index of occurrence, `-1` if absent. -/
def pyFind (hay needle : String) : Int :=
  match pyFindAux hay.toList needle.toList with
  | some n => (n : Int)
  | none => -1

/-- Boolean substring test, `hay.find(needle) != -1`. -/
def strContains (hay needle : String) : Bool :=
  decide (pyFind hay needle ≠ -1)

/-- Normalizes a Python slice endpoint: negative indices count from the end,
out-of-range indices are clamped. -/
def pyIdxNorm (len : Nat) (i : Int) : Nat :=
  if i < 0 then (max 0 (i + len)).toNat else min i.toNat len

/-- Python `s[a:b]`. -/
def pySlice (s : String) (a b : Int) : String :=
  let cs := s.toList
  String.mk ((cs.take (pyIdxNorm cs.length b)).drop (pyIdxNorm cs.length a))

/-- Strips surrounding whitespace from a character list. -/
def stripChars (cs : List Char) : List Char :=
  ((cs.dropWhile Char.isWhitespace).reverse.dropWhile Char.isWhitespace).reverse

/-- Decimal value of a digit character, if it is one. -/
def digitVal (c : Char) : Option Nat :=
  if c.isDigit then some (c.toNat - 48) else none

/-- Parses a non-empty all-digit character list as a natural number. -/
def parseNatChars (cs : List Char) : Option Nat :=
  if cs = [] then none
  else
    cs.foldl
      (fun acc c =>
        match acc, digitVal c with
        | some a, some d => some (a * 10 + d)
        | _, _ => none)
      (some 0)

/-- Python `int(s)` (used on sliced primary-key text): parses an optionally
signed decimal numeral after stripping surrounding whitespace; `none` models
the `ValueError` raised on any other input.  (Python also accepts exotic
forms such as underscore-grouped digits, which never occur in the data the
claims are about.) -/
def pyInt (s : String) : Option Int :=
  match stripChars s.toList with
  | '-' :: rest => (parseNatChars rest).map (fun n => -(n : Int))
  | '+' :: rest => (parseNatChars rest).map (fun n => (n : Int))
  | cs => (parseNatChars cs).map (fun n => (n : Int))

/-- Python `s.replace(a, b)` for single-character patterns (the only use in
the modelled code is replacing `_` with `.` in chassis tokens). -/
def replaceChar (s : String) (a b : Char) : String :=
  String.mk (s.toList.map (fun c => if c = a then b else c))

/-! ## Dictionaries

Python `dict`s modelled as association lists: `dSet` updates an existing key
in place (keeping its position, like Python) or appends a new binding at the
end (Python insertion order); `dFind` models subscripting, with `none`
standing for a `KeyError`. -/

def dFind {κ β : Type} [DecidableEq κ] (d : List (κ × β)) (k : κ) : Option β :=
  (d.find? (fun p => decide (p.1 = k))).map Prod.snd

def dSet {κ β : Type} [DecidableEq κ] (d : List (κ × β)) (k : κ) (v : β) :
    List (κ × β) :=
  if (dFind d k).isSome then
    d.map (fun p => if p.1 = k then (k, v) else p)
  else
    d ++ [(k, v)]

/-- The keys of a dictionary, in order. -/
def dKeys {κ β : Type} (d : List (κ × β)) : List κ := d.map Prod.fst

/-- The values of a dictionary, in order. -/
def dVals {κ β : Type} (d : List (κ × β)) : List β := d.map Prod.snd

/-! ## Result-file blocks

One `Block` per brace-delimited model object that the scanning loop of
`addModels` slices out of the file text
(`fileData.find('{')` … `fileData.find('}}')`).  The record kind is the
`rsinterface.*` model name the code looks for by substring search; a block
whose text names none of the searched models is `plain`. -/

inductive BlockKind where
  | chassis
  | test
  | log
  | message
  | cpu
  | dut
  | plain
deriving DecidableEq, Repr

/-- A parsed model block.

* `pkField` is the raw text the code slices between `'"pk": '` and the
  following comma; `none` when the `'"pk": '` marker is absent (the loop
  breaks there).
* `relField` is the raw value text of the block's relation field (`"test"`
  for log/cpu/dut blocks, `"log"` for message blocks); `none` when the
  marker is absent (`changeFieldPK` then reads an unbound local).
* `statusField` is the status text a test block carries (the code slices it
  between `'"status": "'` and `'"}}'`, assuming the status is the last
  field); `none` when `'"status":'` is absent.
* `content` is the block's full text, scanned for status tokens by the log
  branch.
* `chassisNameField` is the `chassisName` value of a chassis block. -/
structure Block where
  kind : BlockKind
  pkField : Option String
  relField : Option String
  statusField : Option String
  content : String
  chassisNameField : String
deriving DecidableEq, Repr

/-- Records of the combined output blob.  `model` records come re-keyed out
of `addModels`; `osRec`, `chassisRec` and `dateRec` are the objects
synthesized by `combine_results`. -/
inductive Rec where
  | model (pk : Int) (kind : BlockKind) (osField : Option Int)
      (relPK : Option Int) (status : Option String)
  | osRec (pk : Int) (chassis : Int) (operatingSystem : String)
      (status : String)
  | chassisRec (pk : Int) (chassisName : String) (ipNum : String)
      (status : String)
  | dateRec (pk : Int) (tags : String)
deriving DecidableEq, Repr

def Rec.pk : Rec → Int
  | .model k _ _ _ _ => k
  | .osRec k _ _ _ => k
  | .chassisRec k _ _ _ => k
  | .dateRec k _ => k

/-! ## addModels and its helpers -/

/-- tdown_h.changeFieldPK, reduced to the data it computes: the re-keyed
relation value.  `none` models an uncaught exception: when the field marker
is absent the code logs and then evaluates the unbound local `pk`
(`UnboundLocalError`); when the sliced text is not an integer, `int()` raises
`ValueError`. -/
def changeFieldPK (relField : Option String) (highestKey : Int) : Option Int :=
  match relField with
  | none => none
  | some pk =>
    match pyInt pk with
    | none => none
    | some v => some (v + highestKey)

/-- The status-token scan of the log branch of `addModels`:
`for status in reversed(possible_test_statuses): if nextModel.find(status) != -1: … break`. -/
def logStatusScan (content : String) : Option String :=
  possible_test_statuses.reverse.find? (fun st => strContains content st)

/-- The update `osStatus = worseStatus(osStatus, testStatus[testPK])`. -/
def osStatusUpd (ts : List (Int × String)) (testPK : Int) (osSt : String) :
    Option String :=
  match dFind ts testPK with
  | none => none
  | some cur => worseStatus osSt cur

/-- Per-kind part of one iteration of the `addModels` loop, for a non-chassis
block whose primary key parsed as `prevPK`.  Returns the injected `os` field,
the re-keyed relation value, the emitted status text, and the updated
`testStatus` dictionary and running `osStatus`; `none` models an uncaught
exception. -/
def amStep (osKey c : Int) (b : Block) (prevPK : Int)
    (ts : List (Int × String)) (osSt : String) :
    Option (Option Int × Option Int × Option String ×
      List (Int × String) × String) :=
  match b.kind with
  | BlockKind.chassis => none
  | BlockKind.test =>
    let testPK := prevPK + c
    let thisTestStatus :=
      match b.statusField with
      | none => skippedDefault
      | some st => st
    let ts1 := if (dFind ts testPK).isSome then ts
      else dSet ts testPK thisTestStatus
    match osStatusUpd ts1 testPK osSt with
    | none => none
    | some osSt1 => some (some osKey, none, b.statusField, ts1, osSt1)
  | BlockKind.log =>
    match changeFieldPK b.relField c with
    | none => none
    | some testPK =>
      let ts1 := if (dFind ts testPK).isSome then ts
        else dSet ts testPK skippedDefault
      let ts2opt :=
        match logStatusScan b.content with
        | none => some ts1
        | some st =>
          match dFind ts1 testPK with
          | none => none
          | some cur => (worseStatus cur st).map (fun v => dSet ts1 testPK v)
      match ts2opt with
      | none => none
      | some ts2 =>
        match osStatusUpd ts2 testPK osSt with
        | none => none
        | some osSt1 => some (none, some testPK, none, ts2, osSt1)
  | BlockKind.message =>
    match changeFieldPK b.relField c with
    | none => none
    | some relPK => some (none, some relPK, b.statusField, ts, osSt)
  | BlockKind.cpu =>
    match changeFieldPK b.relField c with
    | none => none
    | some relPK => some (none, some relPK, b.statusField, ts, osSt)
  | BlockKind.dut =>
    match changeFieldPK b.relField c with
    | none => none
    | some relPK => some (none, some relPK, b.statusField, ts, osSt)
  | BlockKind.plain => some (none, none, b.statusField, ts, osSt)

/-- The main `while True` loop of `addModels` over the block list, carrying
the running `highestKey`, the `testStatus` dictionary and `osStatus`.
Chassis blocks are skipped untouched; a block without the `'"pk": '` marker
breaks the loop, silently dropping the remaining blocks; `none` models an
uncaught exception. -/
def amLoop (osKey c : Int) :
    List Block → Int → List (Int × String) → String →
    Option (List Rec × Int × List (Int × String) × String)
  | [], hk, ts, osSt => some ([], hk, ts, osSt)
  | b :: rest, hk, ts, osSt =>
    if b.kind = BlockKind.chassis then
      amLoop osKey c rest hk ts osSt
    else
      match b.pkField with
      | none => some ([], hk, ts, osSt)
      | some pkText =>
        match pyInt pkText with
        | none => none
        | some prevPK =>
          let hk1 := if prevPK > hk then prevPK else hk
          match amStep osKey c b prevPK ts osSt with
          | none => none
          | some (osF, relPK, stOut, ts1, osSt1) =>
            match amLoop osKey c rest hk1 ts1 osSt1 with
            | none => none
            | some (recs, hk2, ts2, osSt2) =>
              some (Rec.model (prevPK + c) b.kind osF relPK stOut :: recs,
                hk2, ts2, osSt2)

/-- Structural model of `replaceField(models, pk, 'status', value)`: rewrites
the status field of the record carrying primary key `key`.  (The source does
this by a textual splice over the accumulated blob.) -/
def replaceStatusInRecs (recs : List Rec) (key : Int) (v : String) :
    List Rec :=
  recs.map (fun r =>
    match r with
    | Rec.model pk kind osF relPK _ =>
      if pk = key then Rec.model pk kind osF relPK (some v) else r
    | _ => r)

/-- tdown_h.addModels over the parsed block list.  Returns the emitted
records, the updated highest key (`prevHighestKey + highestKey`), the worst
status observed (`osStatus`) and the chassis display name found in the file;
`none` models an uncaught exception escaping `addModels`.  The error-CSV side
channel is not modelled. -/
def addModels (blocks : List Block) (prevHighestKey osKey : Int) :
    Option (List Rec × Int × String × String) :=
  let chassisName :=
    match blocks.find? (fun b => decide (b.kind = BlockKind.chassis)) with
    | some b => b.chassisNameField
    | none => ""
  match amLoop osKey prevHighestKey blocks 0 [] skippedDefault with
  | none => none
  | some (recs, highestKey, ts, osSt) =>
    let recs2 := ts.foldl
      (fun acc kv =>
        if kv.2 ∈ pass_status then acc
        else replaceStatusInRecs acc kv.1 kv.2) recs
    some (recs2, prevHighestKey + highestKey, osSt, chassisName)

/-- The local primary keys of the blocks that the `addModels` loop actually
processes: chassis blocks are skipped, and the scan stops at the first
non-chassis block without a `'"pk": '` marker.  (On a block whose key text
does not parse the real loop raises instead; the value of this function is
then irrelevant, as `addModels` returns `none`.) -/
def processedLocals : List Block → List Int
  | [] => []
  | b :: rest =>
    if b.kind = BlockKind.chassis then processedLocals rest
    else
      match b.pkField with
      | none => []
      | some t =>
        match pyInt t with
        | none => []
        | some v => v :: processedLocals rest

/-- Kinds whose blocks are re-keyed through `changeFieldPK`. -/
def needsRelField (k : BlockKind) : Bool :=
  match k with
  | BlockKind.log => true
  | BlockKind.message => true
  | BlockKind.cpu => true
  | BlockKind.dut => true
  | _ => false

/-- A block the `addModels` loop can process without breaking and without
raising: chassis blocks, and non-chassis blocks whose primary-key text parses
and whose relation field (when their kind re-keys one) is present and
parses. -/
def blockOk (b : Block) : Bool :=
  if b.kind = BlockKind.chassis then true
  else
    match b.pkField with
    | none => false
    | some t =>
      (pyInt t).isSome &&
        (!needsRelField b.kind ||
          (match b.relField with
           | none => false
           | some r => (pyInt r).isSome))

/-! ## File discovery (getIP, getFilesAndIP) -/

/-- tdown_h.getIP: slices the chassis token out of the file name by fixed
offsets from the substrings `test_` and `.json`
(`fileName[start + 5 : ext - 7]`); the `int` `-1` returned when either marker
is missing is modelled as `none`. -/
def getIP (fileName : String) : Option String :=
  let start := pyFind fileName "test_"
  let ext := pyFind fileName ".json"
  if start ≠ -1 ∧ ext ≠ -1 then
    some (pySlice fileName (start + 5) (ext - 7))
  else
    none

/-- One result file in an OS result directory: its name, whether its content
contains the trailer `File in database`
(`fileData.find('File in database') != -1`), and its parsed model blocks. -/
structure RFile where
  name : String
  inDatabaseTrailer : Bool
  blocks : List Block
deriving DecidableEq, Repr

/-- tdown_h.getFilesAndIP.  Files carrying the database trailer are put on
the remove list before the `inDB[file] = False` line, so they are dropped
from all three outputs; a kept file contributes an IP only when `getIP`
recognizes its name.  Directory listings contain no duplicate names, so the
remove-first-occurrence loop is a filter.  (The `except ValueError` branch is
dead — nothing in the `try` body parses JSON.) -/
def getFilesAndIP (dirFiles : List RFile) :
    List RFile × List (String × Bool) × List String :=
  let keep := dirFiles.filter (fun f => !f.inDatabaseTrailer)
  (keep, keep.map (fun f => (f.name, false)),
    keep.filterMap (fun f => getIP f.name))

/-! ## combine_results

Modelled for runs that have OS results and no hardware/logic result
directory (the claims are all about the OS path).  `highest_key` starts at 1,
the date object takes key 1, and pre-allocation starts from 2.  The output is
the list of records of the final blob in emission order
(re-keyed model records, then os objects, then chassis objects, then the date
object — the splice before the closing bracket); the purely textual
punctuation-normalization pass is not modelled.  `none` models an uncaught
exception aborting the merge. -/

/-- The chassis-token list `all_chassis`: `ip_per_os[0]`, then
`list(set(acc) | set(next))` for each further OS.  Python's set iteration
order is unspecified; the union is modelled with `List.dedup`, and every
property proved about it is order-independent.  A single-OS run performs no
union at all, so its token list keeps duplicates.  (The loop also computes
an intersection `ip_in_all`, which nothing downstream consumes; it is not
modelled.) -/
def buildUnion : List (List String) → List String
  | [] => []
  | h :: t => t.foldl (fun acc l => (acc ++ l).dedup) h

/-- State built by the pre-allocation loop over `all_chassis`
(lines 124-138 of tdown_h.py). -/
structure Alloc where
  chassisKey : List (String × Int)
  chassisStatus : List (String × String)
  chassisName : List (String × String)
  osKey : List (String × Int)
  osStatus : List (String × String)
  hk : Int
deriving Repr

/-- Inner step of the pre-allocation loop: reserve one key for the pair
`(osName, ip)` when this OS's token list contains `ip` (the dictionary key is
the plain concatenation `osName + ip`, as in the source). -/
def allocOsStep (ip : String) (acc : Alloc) (p : String × List String) :
    Alloc :=
  if ip ∈ p.2 then
    { acc with
      osKey := dSet acc.osKey (p.1 ++ ip) acc.hk
      osStatus := dSet acc.osStatus (p.1 ++ ip) skippedDefault
      hk := acc.hk + 1 }
  else acc

/-- One iteration of the pre-allocation loop: reserve a key for the chassis,
then one per OS whose token list contains it. -/
def allocStep (ipsPerOs : List (String × List String)) (a : Alloc)
    (ip : String) : Alloc :=
  let a1 : Alloc :=
    { a with
      chassisKey := dSet a.chassisKey ip a.hk
      chassisStatus := dSet a.chassisStatus ip skippedDefault
      chassisName := dSet a.chassisName ip ""
      hk := a.hk + 1 }
  ipsPerOs.foldl (allocOsStep ip) a1

def allocAll (ipsPerOs : List (String × List String))
    (allChassis : List String) : Alloc :=
  allChassis.foldl (allocStep ipsPerOs) ⟨[], [], [], [], [], 2⟩

/-- Mutable state threaded through the per-file loop of combine_results. -/
structure CombState where
  hk : Int
  osStatus : List (String × String)
  chassisStatus : List (String × String)
  chassisName : List (String × String)
  testResultStatus : String
  modelRecs : List Rec
  osObjs : List Rec
deriving Repr

/-- Structural model of `replaceField(all_os_objects, key, "status", v)`. -/
def replaceOsStatus (recs : List Rec) (key : Int) (v : String) : List Rec :=
  recs.map (fun r =>
    match r with
    | Rec.osRec pk ch os _ => if pk = key then Rec.osRec pk ch os v else r
    | _ => r)

/-- One iteration of the file loop (lines 142-184 of tdown_h.py).  Files
already in the database are skipped (their `inDB` entry is `True` — a branch
the current `getFilesAndIP` can no longer trigger).  For a file whose name
yields no IP token, `getIP` returns the int `-1` and `osName + ip` raises
`TypeError` (`none`).  The os object is emitted once per os key
(`'"pk": ' + str(os_key) + ',' not in all_os_objects`), afterwards only its
status field is rewritten in place.  The trailer append to the processed file
only affects later runs and is not modelled. -/
def fileStep (chassisKey osKey : List (String × Int))
    (inDb : List (String × Bool)) (osName : String)
    (st : CombState) (f : RFile) : Option CombState :=
  if dFind inDb f.name = some true then some st
  else
    match getIP f.name with
    | none => none
    | some ip =>
      match dFind osKey (osName ++ ip) with
      | none => none
      | some okey =>
        match addModels f.blocks st.hk okey with
        | none => none
        | some (recs, hk', retSt, retName) =>
          match dFind st.osStatus (osName ++ ip) with
          | none => none
          | some osCur =>
            match worseStatus osCur retSt with
            | none => none
            | some osNew =>
              match dFind st.chassisStatus ip with
              | none => none
              | some chCur =>
                match worseStatus chCur osNew with
                | none => none
                | some chNew =>
                  match worseStatus st.testResultStatus chNew with
                  | none => none
                  | some trNew =>
                    match dFind chassisKey ip with
                    | none => none
                    | some ckey =>
                      let osObjs' :=
                        if st.osObjs.all (fun r => decide (r.pk ≠ okey)) then
                          st.osObjs ++ [Rec.osRec okey ckey osName osNew]
                        else replaceOsStatus st.osObjs okey osNew
                      let cn' :=
                        if dFind st.chassisName ip = some "" then
                          dSet st.chassisName ip retName
                        else st.chassisName
                      some
                        { hk := hk'
                          osStatus := dSet st.osStatus (osName ++ ip) osNew
                          chassisStatus := dSet st.chassisStatus ip chNew
                          chassisName := cn'
                          testResultStatus := trNew
                          modelRecs := st.modelRecs ++ recs
                          osObjs := osObjs' }

/-- Inner loop: all files of one OS. -/
def filesLoop (chassisKey osKey : List (String × Int))
    (inDb : List (String × Bool)) (osName : String) :
    CombState → List RFile → Option CombState
  | st, [] => some st
  | st, f :: rest =>
    match fileStep chassisKey osKey inDb osName st f with
    | none => none
    | some st' => filesLoop chassisKey osKey inDb osName st' rest

/-- Outer loop: one entry per OS, carrying that OS's discovery output. -/
def ossLoop (chassisKey osKey : List (String × Int)) :
    CombState →
    List (String × List RFile × List (String × Bool) × List String) →
    Option CombState
  | st, [] => some st
  | st, p :: rest =>
    match filesLoop chassisKey osKey p.2.2.1 p.1 st p.2.1 with
    | none => none
    | some st' => ossLoop chassisKey osKey st' rest

/-- The chassis-object emission loop (lines 193-197):
one record per entry of `all_chassis`, keyed and styled from the chassis
dictionaries (`fullIP = "192.168." + ip.replace('_', '.')`). -/
def chassisLoop (chassisKey : List (String × Int))
    (chassisStatus chassisName : List (String × String)) :
    List String → Option (List Rec)
  | [] => some []
  | ip :: rest =>
    match dFind chassisKey ip, dFind chassisStatus ip,
        dFind chassisName ip with
    | some k, some s, some nm =>
      (chassisLoop chassisKey chassisStatus chassisName rest).map
        (fun l =>
          Rec.chassisRec k nm ("192.168." ++ replaceChar ip '_' '.') s :: l)
    | _, _, _ => none

/-- tdown_h.combine_results over one run: the OS list with each OS's result
directory, and the run tag string carried into the date record.  An empty OS
list is the early `return` (nothing written), modelled as an empty record
set. -/
def combine_results (oss : List (String × List RFile)) (tags : String) :
    Option (List Rec) :=
  if oss.isEmpty then some []
  else
    let perOs := oss.map (fun p => (p.1, getFilesAndIP p.2))
    let ipsPerOs : List (String × List String) :=
      perOs.map (fun p => (p.1, p.2.2.2))
    let allChassis := buildUnion (ipsPerOs.map Prod.snd)
    let al := allocAll ipsPerOs allChassis
    let st0 : CombState :=
      { hk := al.hk
        osStatus := al.osStatus
        chassisStatus := al.chassisStatus
        chassisName := al.chassisName
        testResultStatus := skippedDefault
        modelRecs := []
        osObjs := [] }
    match ossLoop al.chassisKey al.osKey st0 perOs with
    | none => none
    | some stF =>
      match chassisLoop al.chassisKey stF.chassisStatus stF.chassisName
          allChassis with
      | none => none
      | some chRecs =>
        some (stF.modelRecs ++ stF.osObjs ++ chRecs ++ [Rec.dateRec 1 tags])

/-- The chassis-token list a run discovers (the loop's `all_chassis`), as a
function of the run input. -/
def discoveredTokens (oss : List (String × List RFile)) : List String :=
  buildUnion (oss.map (fun p => (getFilesAndIP p.2).2.2))

/-- A result file whose extracted local keys are pairwise distinct and
positive. -/
def localsOk (f : RFile) : Prop :=
  (processedLocals f.blocks).Nodup ∧ ∀ v ∈ processedLocals f.blocks, 1 ≤ v

/-- Invariant of the pre-allocation state: keys of both dictionaries are
duplicate-free, all reserved values are pairwise distinct and lie in
`[2, hk)`. -/
structure AllocInv (a : Alloc) : Prop where
  ckeysNodup : (dKeys a.chassisKey).Nodup
  okeysNodup : (dKeys a.osKey).Nodup
  valsNodup : (dVals a.chassisKey ++ dVals a.osKey).Nodup
  valsLo : ∀ v ∈ dVals a.chassisKey ++ dVals a.osKey, 2 ≤ v
  valsHi : ∀ v ∈ dVals a.chassisKey ++ dVals a.osKey, v < a.hk
  hkLo : 2 ≤ a.hk

/-- Invariant of the per-file loop state relative to the allocation `al`:
the counter never moves backwards, re-keyed model records live strictly
between the pre-allocated keys and the current counter, and the emitted os
objects carry pairwise-distinct pre-allocated os keys. -/
structure LoopInv (al : Alloc) (st : CombState) : Prop where
  hkMono : al.hk ≤ st.hk
  modelLo : ∀ k ∈ st.modelRecs.map Rec.pk, al.hk < k
  modelHi : ∀ k ∈ st.modelRecs.map Rec.pk, k ≤ st.hk
  modelNodup : (st.modelRecs.map Rec.pk).Nodup
  osSub : ∀ k ∈ st.osObjs.map Rec.pk, k ∈ dVals al.osKey
  osNodup : (st.osObjs.map Rec.pk).Nodup

/-! ## Concrete inputs used by witnesses and counterexamples -/

/-- A well-formed test block with local key 3 and status "Pass". -/
def demoTestBlock : Block :=
  ⟨BlockKind.test, some "3", none, some "Pass", "", ""⟩

/-- A well-formed plain block with local key 7. -/
def demoPlainBlock : Block :=
  ⟨BlockKind.plain, some "7", none, none, "", ""⟩

def demoBlocks : List Block := [demoTestBlock, demoPlainBlock]

/-- A block whose `'"pk": '` marker is present but whose sliced key text is
not an integer: `int('x')` raises `ValueError` inside the loop. -/
def badPkTextBlock : Block :=
  ⟨BlockKind.test, some "x", none, none, "", ""⟩

/-- A block whose `'"pk": '` marker is absent: the loop breaks there. -/
def noPkBlock : Block :=
  ⟨BlockKind.plain, none, none, none, "", ""⟩

/-- A log block that carries a key but no `"test"` relation field:
`changeFieldPK` logs and then raises `UnboundLocalError`. -/
def orphanLogBlock : Block :=
  ⟨BlockKind.log, some "4", none, none, "", ""⟩

/-- A test block with local key 1 and the given status text. -/
def testStatusBlock (st : String) : Block :=
  ⟨BlockKind.test, some "1", none, some st, "", ""⟩

/-- Two empty result files of the same OS whose names both slice to the
chassis token `101_1`. -/
def cexFileA : RFile := ⟨"test_101_1_resulA.json", false, []⟩

def cexFileB : RFile := ⟨"test_101_1_resulB.json", false, []⟩

/-- A result file whose content carries the `File in database` trailer. -/
def inDbFile : RFile := ⟨"test_101_1_resulA.json", true, []⟩

/-- A result file whose name matches no recognized pattern. -/
def badNameFile : RFile := ⟨"results.txt", false, []⟩

/-- A one-test result file under token `101_1`, for each of two OSes. -/
def osAFile (st : String) : RFile :=
  ⟨"test_101_1_resulA.json", false, [testStatusBlock st]⟩

def osBFile (st : String) : RFile :=
  ⟨"test_101_1_resulB.json", false, [testStatusBlock st]⟩

/-! # Theorems -/

/-! ## Claims C1 to C3: the status lattice -/

/-- Decidable core of claim C1, checked over the whole 10 × 10 vocabulary. -/
theorem worseStatus_tier_aux :
    ∀ a ∈ possible_test_statuses, ∀ b ∈ possible_test_statuses,
      worseStatus a b = some ((worseStatus a b).getD "")
      ∧ ((worseStatus a b).getD "" = a ∨ (worseStatus a b).getD "" = b)
      ∧ tierIdx ((worseStatus a b).getD "") = max (tierIdx a) (tierIdx b) := by
  decide

/-- C1: for every pair of recognized status tokens, `worseStatus` returns one
of its two arguments, namely one whose tier has the largest index in the order
`[Skipped, Off, WrongOS, Pass, Warning, Error]`. -/
theorem worseStatus_tier_total (a b : String)
    (ha : a ∈ possible_test_statuses) (hb : b ∈ possible_test_statuses) :
    ∃ r, worseStatus a b = some r ∧ (r = a ∨ r = b)
      ∧ tierIdx r = max (tierIdx a) (tierIdx b) := by
  obtain ⟨h1, h2, h3⟩ := worseStatus_tier_aux a ha b hb
  exact ⟨(worseStatus a b).getD "", h1, h2, h3⟩

/-- Witness for C1 at the concrete pair ("Pass", "Fatal"). -/
theorem worseStatus_tier_total_witness :
    ∃ r, worseStatus "Pass" "Fatal" = some r ∧ (r = "Pass" ∨ r = "Fatal")
      ∧ tierIdx r = max (tierIdx "Pass") (tierIdx "Fatal") :=
  worseStatus_tier_total "Pass" "Fatal" (by decide) (by decide)

/-- On recognized statuses `worseStatus` never raises and returns a recognized
status. -/
theorem worseStatus_valid :
    ∀ a ∈ possible_test_statuses, ∀ b ∈ possible_test_statuses,
      worseStatus a b = some ((worseStatus a b).getD "")
      ∧ (worseStatus a b).getD "" ∈ possible_test_statuses := by
  decide

/-- Two successive fold steps with recognized statuses commute. -/
theorem statusFoldStep_comm :
    ∀ a ∈ possible_test_statuses, ∀ x ∈ possible_test_statuses,
      ∀ y ∈ possible_test_statuses,
        statusFoldStep (statusFoldStep (some a) x) y
          = statusFoldStep (statusFoldStep (some a) y) x := by
  decide

theorem foldWorse_perm_aux {l₁ l₂ : List String} (p : l₁.Perm l₂) :
    (∀ x ∈ l₁, x ∈ possible_test_statuses) →
      ∀ a ∈ possible_test_statuses,
        List.foldl statusFoldStep (some a) l₁
          = List.foldl statusFoldStep (some a) l₂ := by
  induction p with
  | nil =>
      intro _ a _
      rfl
  | cons x p ih =>
      intro h a ha
      have hx : x ∈ possible_test_statuses := h x (List.mem_cons_self x _)
      obtain ⟨hsome, hmem⟩ := worseStatus_valid a ha x hx
      simp only [List.foldl_cons]
      have hstep : statusFoldStep (some a) x
          = some ((worseStatus a x).getD "") := by
        simpa [statusFoldStep] using hsome
      rw [hstep]
      exact ih (fun y hy => h y (List.mem_cons_of_mem x hy)) _ hmem
  | swap x y l =>
      intro h a ha
      have hx : x ∈ possible_test_statuses := h x (by simp)
      have hy : y ∈ possible_test_statuses := h y (by simp)
      simp only [List.foldl_cons]
      rw [statusFoldStep_comm a ha y hy x hx]
  | trans p q ih1 ih2 =>
      intro h a ha
      have h2 : ∀ x ∈ _, x ∈ possible_test_statuses :=
        fun x hx => h x (p.mem_iff.mpr hx)
      exact (ih1 h a ha).trans (ih2 h2 a ha)

/-- C2: folding a sequence of recognized statuses left-to-right through
`worseStatus` gives the same result for every ordering of the sequence. -/
theorem foldWorse_perm (s : String) (l₁ l₂ : List String)
    (hs : s ∈ possible_test_statuses)
    (hl : ∀ x ∈ l₁, x ∈ possible_test_statuses)
    (p : l₁.Perm l₂) :
    foldWorse s l₁ = foldWorse s l₂ :=
  foldWorse_perm_aux p hl s hs

/-- Witness for C2 on a concrete reordered sequence. -/
theorem foldWorse_perm_witness :
    foldWorse "Skipped" ["Pass", "Fatal", "Warning"]
      = foldWorse "Skipped" ["Warning", "Pass", "Fatal"] :=
  foldWorse_perm "Skipped" ["Pass", "Fatal", "Warning"]
    ["Warning", "Pass", "Fatal"] (by decide) (by decide)
    (by decide)

/-- C3: `worseStatus` raises (`none`) exactly when both arguments are outside
the recognized vocabulary; with exactly one unrecognized argument it returns
the recognized one. -/
theorem worseStatus_invalid_handling (a b : String) :
    (worseStatus a b = none
        ↔ a ∉ possible_test_statuses ∧ b ∉ possible_test_statuses)
    ∧ (a ∈ possible_test_statuses → b ∉ possible_test_statuses →
        worseStatus a b = some a)
    ∧ (a ∉ possible_test_statuses → b ∈ possible_test_statuses →
        worseStatus a b = some b) := by
  by_cases ha : a ∈ possible_test_statuses <;>
    by_cases hb : b ∈ possible_test_statuses <;>
      simp [worseStatus, ha, hb]

/-! ## Dictionary lemmas -/

theorem dFind_cons_eq {κ β : Type} [DecidableEq κ] (p : κ × β)
    (rest : List (κ × β)) (k : κ) (hp : p.1 = k) :
    dFind (p :: rest) k = some p.2 := by
  simp [dFind, List.find?_cons, hp]

theorem dFind_cons_ne {κ β : Type} [DecidableEq κ] (p : κ × β)
    (rest : List (κ × β)) (k : κ) (hp : ¬ p.1 = k) :
    dFind (p :: rest) k = dFind rest k := by
  simp [dFind, List.find?_cons, hp]

theorem dFind_map_upd {κ β : Type} [DecidableEq κ] (d : List (κ × β))
    (k : κ) (v w : β) (h : dFind d k = some w) :
    dFind (d.map (fun p => if p.1 = k then (k, v) else p)) k = some v := by
  induction d with
  | nil => simp [dFind] at h
  | cons p rest ih =>
    by_cases hp : p.1 = k
    · simp only [List.map_cons, if_pos hp]
      exact dFind_cons_eq _ _ _ rfl
    · rw [dFind_cons_ne p rest k hp] at h
      simp only [List.map_cons, if_neg hp]
      rw [dFind_cons_ne _ _ _ hp]
      exact ih h

theorem dFind_append_new {κ β : Type} [DecidableEq κ] (d : List (κ × β))
    (k : κ) (v : β) (h : dFind d k = none) :
    dFind (d ++ [(k, v)]) k = some v := by
  induction d with
  | nil => exact dFind_cons_eq _ _ _ rfl
  | cons p rest ih =>
    by_cases hp : p.1 = k
    · rw [dFind_cons_eq p rest k hp] at h
      exact absurd h (by simp)
    · rw [dFind_cons_ne p rest k hp] at h
      rw [List.cons_append, dFind_cons_ne _ _ _ hp]
      exact ih h

theorem dFind_dSet_self {κ β : Type} [DecidableEq κ] (d : List (κ × β))
    (k : κ) (v : β) :
    dFind (dSet d k v) k = some v := by
  unfold dSet
  by_cases h : (dFind d k).isSome
  · obtain ⟨w, hw⟩ := Option.isSome_iff_exists.mp h
    rw [if_pos h]
    exact dFind_map_upd d k v w hw
  · rw [if_neg h]
    exact dFind_append_new d k v (Option.not_isSome_iff_eq_none.mp h)

theorem dKeys_cons {κ β : Type} (p : κ × β) (rest : List (κ × β)) :
    dKeys (p :: rest) = p.1 :: dKeys rest := rfl

theorem dVals_cons {κ β : Type} (p : κ × β) (rest : List (κ × β)) :
    dVals (p :: rest) = p.2 :: dVals rest := rfl

theorem dFind_isSome_iff {κ β : Type} [DecidableEq κ] (d : List (κ × β))
    (k : κ) : (dFind d k).isSome = true ↔ k ∈ dKeys d := by
  induction d with
  | nil => simp [dFind, dKeys]
  | cons p rest ih =>
    by_cases hp : p.1 = k
    · simp [dFind_cons_eq p rest k hp, dKeys_cons, hp]
    · rw [dFind_cons_ne p rest k hp, dKeys_cons]
      rw [ih]
      constructor
      · intro hmem; exact List.mem_cons_of_mem _ hmem
      · intro hmem
        rcases List.mem_cons.mp hmem with heq | hmem2
        · exact absurd heq.symm hp
        · exact hmem2

theorem dFind_mem_dVals {κ β : Type} [DecidableEq κ] {d : List (κ × β)}
    {k : κ} {v : β} (h : dFind d k = some v) : v ∈ dVals d := by
  induction d with
  | nil => simp [dFind] at h
  | cons p rest ih =>
    by_cases hp : p.1 = k
    · rw [dFind_cons_eq p rest k hp] at h
      simp only [Option.some_inj] at h
      rw [dVals_cons, ← h]
      exact List.mem_cons_self _ _
    · rw [dFind_cons_ne p rest k hp] at h
      rw [dVals_cons]
      exact List.mem_cons_of_mem _ (ih h)

theorem dKeys_map_upd {κ β : Type} [DecidableEq κ] (k : κ) (v : β) :
    ∀ (d : List (κ × β)),
      dKeys (d.map (fun p => if p.1 = k then (k, v) else p)) = dKeys d := by
  intro d
  induction d with
  | nil => rfl
  | cons p rest ih =>
    simp only [List.map_cons, dKeys_cons, ih]
    by_cases hp : p.1 = k
    · rw [if_pos hp]
      simp [hp]
    · rw [if_neg hp]

theorem dKeys_dSet_nodup {κ β : Type} [DecidableEq κ] (d : List (κ × β))
    (k : κ) (v : β) (h : (dKeys d).Nodup) : (dKeys (dSet d k v)).Nodup := by
  unfold dSet
  by_cases hs : (dFind d k).isSome
  · rw [if_pos hs, dKeys_map_upd]
    exact h
  · rw [if_neg hs]
    have hkeys : dKeys (d ++ [(k, v)]) = dKeys d ++ [k] := by
      simp [dKeys]
    rw [hkeys]
    have hk : k ∉ dKeys d := fun hm => hs ((dFind_isSome_iff d k).mpr hm)
    simp only [List.nodup_append, List.nodup_singleton, true_and, h]
    intro x hx
    simp only [List.mem_singleton]
    intro hxk
    exact hk (hxk ▸ hx)

theorem dVals_map_upd_mem {κ β : Type} [DecidableEq κ] {d : List (κ × β)}
    {k : κ} {v w : β}
    (h : w ∈ dVals (d.map (fun p => if p.1 = k then (k, v) else p))) :
    w ∈ dVals d ∨ w = v := by
  simp only [dVals, List.map_map, List.mem_map, Function.comp_apply] at h
  obtain ⟨p, hp, hw⟩ := h
  by_cases hpk : p.1 = k
  · rw [if_pos hpk] at hw
    exact Or.inr hw.symm
  · rw [if_neg hpk] at hw
    exact Or.inl (by
      simp only [dVals, List.mem_map]
      exact ⟨p, hp, hw⟩)

theorem map_upd_of_not_mem {κ β : Type} [DecidableEq κ] (k : κ) (v : β) :
    ∀ (d : List (κ × β)), k ∉ dKeys d →
      d.map (fun p => if p.1 = k then (k, v) else p) = d := by
  intro d
  induction d with
  | nil => intro _; rfl
  | cons p rest ih =>
    intro h
    rw [dKeys_cons] at h
    simp only [List.mem_cons] at h
    push_neg at h
    obtain ⟨h1, h2⟩ := h
    simp only [List.map_cons]
    rw [if_neg (fun he => h1 he.symm), ih h2]

theorem dVals_map_upd_nodup {κ β : Type} [DecidableEq κ] (k : κ) (v : β) :
    ∀ (d : List (κ × β)), (dKeys d).Nodup → (dVals d).Nodup →
      v ∉ dVals d →
      (dVals (d.map (fun p => if p.1 = k then (k, v) else p))).Nodup := by
  intro d
  induction d with
  | nil => intro _ _ _; simp [dVals]
  | cons p rest ih =>
    intro hkeys hvals hv
    rw [dKeys_cons, List.nodup_cons] at hkeys
    rw [dVals_cons, List.nodup_cons] at hvals
    obtain ⟨hk1, hk2⟩ := hkeys
    obtain ⟨hv1, hv2⟩ := hvals
    have hvrest : v ∉ dVals rest :=
      fun hm => hv (by rw [dVals_cons]; exact List.mem_cons_of_mem _ hm)
    have hvhead : ¬ p.2 = v := by
      intro he
      exact hv (by rw [dVals_cons, he]; exact List.mem_cons_self _ _)
    by_cases hp : p.1 = k
    · simp only [List.map_cons, if_pos hp]
      rw [map_upd_of_not_mem k v rest (hp ▸ hk1)]
      rw [dVals_cons, List.nodup_cons]
      exact ⟨hvrest, hv2⟩
    · simp only [List.map_cons, if_neg hp]
      rw [dVals_cons, List.nodup_cons]
      constructor
      · intro hmem
        rcases dVals_map_upd_mem hmem with h1 | h1
        · exact hv1 h1
        · exact hvhead h1
      · exact ih hk2 hv2 hvrest

theorem dVals_dSet_mem {κ β : Type} [DecidableEq κ] {d : List (κ × β)}
    {k : κ} {v w : β} (h : w ∈ dVals (dSet d k v)) :
    w ∈ dVals d ∨ w = v := by
  unfold dSet at h
  by_cases hs : (dFind d k).isSome
  · rw [if_pos hs] at h
    exact dVals_map_upd_mem h
  · rw [if_neg hs] at h
    simp only [dVals, List.map_append] at h
    rcases List.mem_append.mp h with h1 | h1
    · exact Or.inl h1
    · simp only [List.map_cons, List.map_nil, List.mem_singleton] at h1
      exact Or.inr h1

theorem dVals_dSet_nodup {κ β : Type} [DecidableEq κ] (d : List (κ × β))
    (k : κ) (v : β) (hkeys : (dKeys d).Nodup) (hvals : (dVals d).Nodup)
    (hv : v ∉ dVals d) : (dVals (dSet d k v)).Nodup := by
  unfold dSet
  by_cases hs : (dFind d k).isSome
  · rw [if_pos hs]
    exact dVals_map_upd_nodup k v d hkeys hvals hv
  · rw [if_neg hs]
    have hvals2 : dVals (d ++ [(k, v)]) = dVals d ++ [v] := by
      simp [dVals]
    rw [hvals2]
    simp only [List.nodup_append, List.nodup_singleton, true_and, hvals]
    intro x hx
    simp only [List.mem_singleton]
    intro hxv
    exact hv (hxv ▸ hx)

theorem dFind_entry {κ β : Type} [DecidableEq κ] {d : List (κ × β)}
    {k : κ} {v : β} (h : dFind d k = some v) : (k, v) ∈ d := by
  unfold dFind at h
  cases hf : d.find? (fun p => decide (p.1 = k)) with
  | none => rw [hf] at h; simp at h
  | some e =>
    rw [hf] at h
    simp only [Option.map_some', Option.some_inj] at h
    have he1 := List.find?_some hf
    have he2 := List.mem_of_find?_eq_some hf
    simp only [decide_eq_true_eq] at he1
    have heq : e = (k, v) := by
      obtain ⟨e1, e2⟩ := e
      simp only [Prod.mk.injEq]
      exact ⟨he1, h⟩
    exact heq ▸ he2

theorem dFind_inj {κ β : Type} [DecidableEq κ] {d : List (κ × β)}
    {k1 k2 : κ} {v1 v2 : β} (hvals : (dVals d).Nodup)
    (h1 : dFind d k1 = some v1) (h2 : dFind d k2 = some v2)
    (hne : ¬ k1 = k2) : ¬ v1 = v2 := by
  intro hv
  have e1 := dFind_entry h1
  have e2 := dFind_entry h2
  have hinj := List.inj_on_of_nodup_map
    (show ((d.map Prod.snd).Nodup) from hvals)
  have heq : (k1, v1) = (k2, v2) := hinj e1 e2 (by simpa using hv)
  simp only [Prod.mk.injEq] at heq
  exact hne heq.1

/-! ## Integer running-maximum lemmas -/

theorem foldlMax_le_init : ∀ (l : List Int) (a : Int),
    a ≤ l.foldl (fun x v => if v > x then v else x) a := by
  intro l
  induction l with
  | nil => intro a; simp
  | cons w rest ih =>
    intro a
    simp only [List.foldl_cons]
    refine le_trans ?_ (ih _)
    by_cases hw : w > a
    · rw [if_pos hw]; exact le_of_lt hw
    · rw [if_neg hw]

theorem le_foldlMax_of_mem : ∀ (l : List Int) (a v : Int), v ∈ l →
    v ≤ l.foldl (fun x v => if v > x then v else x) a := by
  intro l
  induction l with
  | nil => intro a v hv; simp at hv
  | cons w rest ih =>
    intro a v hv
    simp only [List.foldl_cons]
    rcases List.mem_cons.mp hv with rfl | hv2
    · refine le_trans ?_ (foldlMax_le_init rest _)
      by_cases hw : v > a
      · rw [if_pos hw]
      · rw [if_neg hw]; exact le_of_not_lt hw
    · exact ih _ v hv2

/-! ## Primary-key bookkeeping of addModels (claim C5) -/

theorem amLoop_pks (osKey c : Int) :
    ∀ (blocks : List Block) (hk : Int) (ts : List (Int × String))
      (osSt : String) (recs : List Rec) (hk' : Int)
      (ts' : List (Int × String)) (osSt' : String),
      amLoop osKey c blocks hk ts osSt = some (recs, hk', ts', osSt') →
      recs.map Rec.pk = (processedLocals blocks).map (fun v => v + c)
      ∧ hk' = (processedLocals blocks).foldl
          (fun a v => if v > a then v else a) hk := by
  intro blocks
  induction blocks with
  | nil =>
    intro hk ts osSt recs hk' ts' osSt' h
    simp only [amLoop, Option.some_inj, Prod.mk.injEq] at h
    obtain ⟨rfl, rfl, rfl, rfl⟩ := h
    simp [processedLocals]
  | cons b rest ih =>
    intro hk ts osSt recs hk' ts' osSt' h
    by_cases hc : b.kind = BlockKind.chassis
    · rw [amLoop, if_pos hc] at h
      obtain ⟨h1, h2⟩ := ih hk ts osSt recs hk' ts' osSt' h
      simp [processedLocals, hc, h1, h2]
    · rw [amLoop, if_neg hc] at h
      split at h
      · rename_i hpk
        simp only [Option.some_inj, Prod.mk.injEq] at h
        obtain ⟨rfl, rfl, rfl, rfl⟩ := h
        simp [processedLocals, hc, hpk]
      · rename_i pkText hpk
        split at h
        · exact absurd h (by simp)
        · rename_i prevPK hint
          dsimp only at h
          split at h
          · exact absurd h (by simp)
          · rename_i osF relPK stOut ts1 osSt1 hstep
            split at h
            · exact absurd h (by simp)
            · rename_i recs0 hk2 ts2 osSt2 hrec
              simp only [Option.some_inj, Prod.mk.injEq] at h
              obtain ⟨rfl, rfl, rfl, rfl⟩ := h
              obtain ⟨h1, h2⟩ := ih _ _ _ _ _ _ _ hrec
              constructor
              · simp [processedLocals, hc, hpk, hint, Rec.pk, h1]
              · simp [processedLocals, hc, hpk, hint, h2, List.foldl_cons]

theorem replaceStatusInRecs_pks (recs : List Rec) (key : Int) (v : String) :
    (replaceStatusInRecs recs key v).map Rec.pk = recs.map Rec.pk := by
  induction recs with
  | nil => rfl
  | cons r rest ih =>
    simp only [replaceStatusInRecs, List.map_cons] at ih ⊢
    congr 1
    cases r with
    | model pk kind osF relPK st =>
      by_cases hpk : pk = key <;> simp [Rec.pk, hpk]
    | osRec pk ch os st => rfl
    | chassisRec pk nm ip st => rfl
    | dateRec pk tg => rfl

theorem statusFixup_pks (ts : List (Int × String)) (recs : List Rec) :
    (ts.foldl
      (fun acc kv =>
        if kv.2 ∈ pass_status then acc
        else replaceStatusInRecs acc kv.1 kv.2) recs).map Rec.pk
      = recs.map Rec.pk := by
  induction ts generalizing recs with
  | nil => rfl
  | cons kv rest ih =>
    simp only [List.foldl_cons]
    rw [ih]
    by_cases h : kv.2 ∈ pass_status
    · simp [h]
    · simp [h, replaceStatusInRecs_pks]

/-- C5: every record emitted by `addModels` with counter offset `c` carries
its original local key shifted by exactly `c`, and the returned counter is
`c` plus the running maximum (seeded with 0) of the local keys of the
non-chassis blocks it processed. -/
theorem addModels_rekey_offset (blocks : List Block) (c osKey : Int)
    (recs : List Rec) (c' : Int) (st nm : String)
    (h : addModels blocks c osKey = some (recs, c', st, nm)) :
    recs.map Rec.pk = (processedLocals blocks).map (fun v => v + c)
    ∧ c' = c + (processedLocals blocks).foldl
        (fun a v => if v > a then v else a) 0 := by
  unfold addModels at h
  dsimp only at h
  split at h
  · exact absurd h (by simp)
  · rename_i recs0 hk ts osSt hloop
    simp only [Option.some_inj, Prod.mk.injEq] at h
    obtain ⟨h3, h4, h5, h6⟩ := h
    obtain ⟨h1, h2⟩ := amLoop_pks osKey c blocks 0 [] skippedDefault
      recs0 hk ts osSt hloop
    subst h3 h4
    exact ⟨by rw [statusFixup_pks, h1], by rw [h2]⟩

/-- Witness for C5 on two concrete blocks with local keys 3 and 7 merged at
counter offset 10. -/
theorem addModels_rekey_offset_witness :
    ([Rec.model 13 BlockKind.test (some 2) none (some "Pass"),
      Rec.model 17 BlockKind.plain none none none] : List Rec).map Rec.pk
      = (processedLocals demoBlocks).map (fun v => v + 10)
    ∧ (17 : Int) = 10 + (processedLocals demoBlocks).foldl
        (fun a v => if v > a then v else a) 0 :=
  addModels_rekey_offset demoBlocks 10 2 _ 17 "Pass" "" rfl

/-! ## Validity of the running osStatus (used by claims C6 and C10) -/

theorem worseStatus_left_valid (a b : String)
    (ha : a ∈ possible_test_statuses) :
    ∃ r, worseStatus a b = some r ∧ r ∈ possible_test_statuses := by
  by_cases hb : b ∈ possible_test_statuses
  · obtain ⟨h1, h2⟩ := worseStatus_valid a ha b hb
    exact ⟨_, h1, h2⟩
  · exact ⟨a, by simp [worseStatus, ha, hb], ha⟩

theorem worseStatus_right_valid (a b : String)
    (hb : b ∈ possible_test_statuses) :
    ∃ r, worseStatus a b = some r ∧ r ∈ possible_test_statuses := by
  by_cases ha : a ∈ possible_test_statuses
  · exact worseStatus_left_valid a b ha
  · exact ⟨b, by simp [worseStatus, ha, hb], hb⟩

theorem logStatusScan_mem {content st : String}
    (h : logStatusScan content = some st) :
    st ∈ possible_test_statuses := by
  have hmem := List.mem_of_find?_eq_some h
  simpa using hmem

/-- A block that satisfies `blockOk` steps through the per-kind part of the
loop without raising, and keeps the running `osStatus` inside the recognized
vocabulary. -/
theorem amStep_ok (osKey c : Int) (b : Block) (v : Int)
    (ts : List (Int × String)) (osSt : String)
    (hok : blockOk b = true) (hc : ¬ b.kind = BlockKind.chassis)
    (hs : osSt ∈ possible_test_statuses) :
    ∃ osF relPK stOut ts1 osSt1,
      amStep osKey c b v ts osSt = some (osF, relPK, stOut, ts1, osSt1)
      ∧ osSt1 ∈ possible_test_statuses := by
  have hrel : needsRelField b.kind = true →
      ∃ w, changeFieldPK b.relField c = some w := by
    intro hneed
    rw [blockOk, if_neg hc] at hok
    cases hpk : b.pkField with
    | none => rw [hpk] at hok; exact absurd hok (by simp)
    | some t =>
      rw [hpk] at hok
      simp only [Bool.and_eq_true, Bool.or_eq_true] at hok
      obtain ⟨-, hok2⟩ := hok
      cases hok2 with
      | inl hneg => rw [hneed] at hneg; exact absurd hneg (by simp)
      | inr hok2 =>
        cases hr : b.relField with
        | none => rw [hr] at hok2; exact absurd hok2 (by simp)
        | some r =>
          rw [hr] at hok2
          dsimp only at hok2
          obtain ⟨w, hw⟩ := Option.isSome_iff_exists.mp hok2
          exact ⟨w + c, by simp [changeFieldPK, hw]⟩
  cases hkind : b.kind with
  | chassis => exact absurd hkind hc
  | test =>
    have hcur : ∃ cur,
        dFind (if (dFind ts (v + c)).isSome then ts
          else dSet ts (v + c)
            (match b.statusField with
             | none => skippedDefault
             | some st => st)) (v + c) = some cur := by
      by_cases hin : (dFind ts (v + c)).isSome
      · rw [if_pos hin]; exact Option.isSome_iff_exists.mp hin
      · rw [if_neg hin]; exact ⟨_, dFind_dSet_self _ _ _⟩
    obtain ⟨cur, hcur⟩ := hcur
    obtain ⟨r, hr, hrmem⟩ := worseStatus_left_valid osSt cur hs
    refine ⟨some osKey, none, b.statusField,
      (if (dFind ts (v + c)).isSome then ts
        else dSet ts (v + c)
          (match b.statusField with
           | none => skippedDefault
           | some st => st)), r, ?_, hrmem⟩
    simp only [amStep, hkind, osStatusUpd, hcur, hr]
  | log =>
    obtain ⟨w, hw⟩ := hrel (by rw [hkind]; rfl)
    have hcur1 : ∃ cur,
        dFind (if (dFind ts w).isSome then ts
          else dSet ts w skippedDefault) w = some cur := by
      by_cases hin : (dFind ts w).isSome
      · rw [if_pos hin]; exact Option.isSome_iff_exists.mp hin
      · rw [if_neg hin]; exact ⟨_, dFind_dSet_self _ _ _⟩
    obtain ⟨cur, hcur1⟩ := hcur1
    cases hscan : logStatusScan b.content with
    | none =>
      obtain ⟨r, hr, hrmem⟩ := worseStatus_left_valid osSt cur hs
      refine ⟨none, some w, none,
        (if (dFind ts w).isSome then ts else dSet ts w skippedDefault),
        r, ?_, hrmem⟩
      simp only [amStep, hkind, hw, hscan, osStatusUpd, hcur1, hr]
    | some st =>
      have hstmem := logStatusScan_mem hscan
      obtain ⟨v2, hv2, hv2mem⟩ := worseStatus_right_valid cur st hstmem
      obtain ⟨r, hr, hrmem⟩ := worseStatus_left_valid osSt v2 hs
      refine ⟨none, some w, none,
        dSet (if (dFind ts w).isSome then ts else dSet ts w skippedDefault)
          w v2, r, ?_, hrmem⟩
      simp only [amStep, hkind, hw, hscan, osStatusUpd, hcur1, hv2,
        Option.map_some', dFind_dSet_self, hr]
  | message =>
    obtain ⟨w, hw⟩ := hrel (by rw [hkind]; rfl)
    exact ⟨none, some w, b.statusField, ts, osSt,
      by simp only [amStep, hkind, hw], hs⟩
  | cpu =>
    obtain ⟨w, hw⟩ := hrel (by rw [hkind]; rfl)
    exact ⟨none, some w, b.statusField, ts, osSt,
      by simp only [amStep, hkind, hw], hs⟩
  | dut =>
    obtain ⟨w, hw⟩ := hrel (by rw [hkind]; rfl)
    exact ⟨none, some w, b.statusField, ts, osSt,
      by simp only [amStep, hkind, hw], hs⟩
  | plain =>
    exact ⟨none, none, b.statusField, ts, osSt,
      by simp only [amStep, hkind], hs⟩

/-- Running the loop over a fully well-formed block list never breaks or
raises, and appending further blocks continues from the reached state. -/
theorem amLoop_append_ok (osKey c : Int) :
    ∀ (pfx l : List Block) (hk : Int) (ts : List (Int × String))
      (osSt : String),
      (∀ b ∈ pfx, blockOk b = true) →
      osSt ∈ possible_test_statuses →
      ∃ recs hk' ts' osSt',
        amLoop osKey c pfx hk ts osSt = some (recs, hk', ts', osSt')
        ∧ osSt' ∈ possible_test_statuses
        ∧ amLoop osKey c (pfx ++ l) hk ts osSt
            = (amLoop osKey c l hk' ts' osSt').map
                (fun r => (recs ++ r.1, r.2.1, r.2.2.1, r.2.2.2)) := by
  intro pfx
  induction pfx with
  | nil =>
    intro l hk ts osSt _ hs
    refine ⟨[], hk, ts, osSt, rfl, hs, ?_⟩
    rw [List.nil_append]
    cases hq : amLoop osKey c l hk ts osSt with
    | none => simp
    | some q =>
      obtain ⟨q1, q2, q3, q4⟩ := q
      simp
  | cons b rest ih =>
    intro l hk ts osSt hok hs
    have hokb : blockOk b = true := hok b (List.mem_cons_self _ _)
    have hokr : ∀ x ∈ rest, blockOk x = true :=
      fun x hx => hok x (List.mem_cons_of_mem _ hx)
    by_cases hc : b.kind = BlockKind.chassis
    · obtain ⟨recs, hk', ts', osSt', h1, h2, h3⟩ := ih l hk ts osSt hokr hs
      refine ⟨recs, hk', ts', osSt', ?_, h2, ?_⟩
      · rw [amLoop, if_pos hc]; exact h1
      · rw [List.cons_append, amLoop, if_pos hc]; exact h3
    · have hpkt : ∃ t pv, b.pkField = some t ∧ pyInt t = some pv := by
        rw [blockOk, if_neg hc] at hokb
        cases hpk : b.pkField with
        | none => rw [hpk] at hokb; exact absurd hokb (by simp)
        | some t =>
          rw [hpk] at hokb
          simp only [Bool.and_eq_true] at hokb
          obtain ⟨h1, -⟩ := hokb
          obtain ⟨pv, hpv⟩ := Option.isSome_iff_exists.mp h1
          exact ⟨t, pv, rfl, hpv⟩
      obtain ⟨t, pv, hpk, hpv⟩ := hpkt
      obtain ⟨osF, relPK, stOut, ts1, osSt1, hstep, hs1⟩ :=
        amStep_ok osKey c b pv ts osSt hokb hc hs
      obtain ⟨recs, hk', ts', osSt', h1, h2, h3⟩ :=
        ih l (if pv > hk then pv else hk) ts1 osSt1 hokr hs1
      refine ⟨Rec.model (pv + c) b.kind osF relPK stOut :: recs, hk', ts',
        osSt', ?_, h2, ?_⟩
      · rw [amLoop, if_neg hc, hpk]
        dsimp only
        simp only [hpv, hstep, h1]
      · rw [List.cons_append, amLoop, if_neg hc, hpk]
        dsimp only
        simp only [hpv, hstep, h3]
        cases amLoop osKey c l hk' ts' osSt' <;> simp

/-- C6 (amended): on reaching a non-chassis block without the `'"pk": '`
marker, extraction stops, the tail is dropped, and the records, counter and
status of the well-formed preceding blocks are returned.  (As the
counterexample shows, a block whose key text is present but unparsable makes
`addModels` raise instead.) -/
theorem addModels_break_on_missing_pk (pfx rest : List Block) (b0 : Block)
    (c osKey : Int)
    (hok : ∀ b ∈ pfx, blockOk b = true)
    (hc : ¬ b0.kind = BlockKind.chassis) (hpk : b0.pkField = none) :
    (addModels pfx c osKey).isSome = true
    ∧ (addModels (pfx ++ b0 :: rest) c osKey).map
        (fun r => (r.1, r.2.1, r.2.2.1))
      = (addModels pfx c osKey).map (fun r => (r.1, r.2.1, r.2.2.1)) := by
  have hskip : skippedDefault ∈ possible_test_statuses := by decide
  obtain ⟨recs, hk', ts', osSt', h1, h2, h3⟩ :=
    amLoop_append_ok osKey c pfx (b0 :: rest) 0 [] skippedDefault hok hskip
  have hb : amLoop osKey c (b0 :: rest) hk' ts' osSt'
      = some ([], hk', ts', osSt') := by
    rw [amLoop, if_neg hc, hpk]
  rw [hb] at h3
  unfold addModels
  rw [h1, h3]
  simp

/-- Counterexample to C6 as stated: on a block whose `'"pk": '` text is
present but not an integer, `int()` raises `ValueError` and `addModels` does
not terminate normally (`none`), so extraction does not "terminate without
raising" for every input. -/
theorem addModels_pk_valueerror :
    addModels [badPkTextBlock] 0 1 = none := by
  rfl

/-- Witness for the amended C6: two well-formed blocks followed by a
marker-less block and a dropped tail. -/
theorem addModels_break_on_missing_pk_witness :
    (addModels demoBlocks 10 2).isSome = true
    ∧ (addModels (demoBlocks ++ noPkBlock :: [demoPlainBlock]) 10 2).map
        (fun r => (r.1, r.2.1, r.2.2.1))
      = (addModels demoBlocks 10 2).map (fun r => (r.1, r.2.1, r.2.2.1)) :=
  addModels_break_on_missing_pk demoBlocks [demoPlainBlock] noPkBlock 10 2
    (by decide) (by decide) rfl

/-- A log/message/cpu/dut block without its relation field makes the step
raise (`changeFieldPK` evaluates the unbound local `pk`). -/
theorem amStep_missing_rel (osKey c : Int) (b : Block) (v : Int)
    (ts : List (Int × String)) (osSt : String)
    (hneed : needsRelField b.kind = true) (hrel : b.relField = none) :
    amStep osKey c b v ts osSt = none := by
  cases hkind : b.kind with
  | log => simp [amStep, hkind, hrel, changeFieldPK]
  | message => simp [amStep, hkind, hrel, changeFieldPK]
  | cpu => simp [amStep, hkind, hrel, changeFieldPK]
  | dut => simp [amStep, hkind, hrel, changeFieldPK]
  | chassis => rw [hkind] at hneed; exact absurd hneed (by simp [needsRelField])
  | test => rw [hkind] at hneed; exact absurd hneed (by simp [needsRelField])
  | plain => rw [hkind] at hneed; exact absurd hneed (by simp [needsRelField])

/-- C10: `changeFieldPK` on a model text without the named relation field
fails with an uncaught unbound-variable error instead of returning, and a
log/message/cpu/dut block lacking its relation field therefore aborts the
whole extraction with an exception. -/
theorem changeFieldPK_missing_field_partial (pfx rest : List Block)
    (b0 : Block) (c osKey hk : Int) (t : String)
    (hok : ∀ b ∈ pfx, blockOk b = true)
    (hneed : needsRelField b0.kind = true)
    (hrel : b0.relField = none)
    (hpk : b0.pkField = some t) (hpv : (pyInt t).isSome = true) :
    changeFieldPK b0.relField hk = none
    ∧ addModels (pfx ++ b0 :: rest) c osKey = none := by
  constructor
  · rw [hrel]; rfl
  · have hskip : skippedDefault ∈ possible_test_statuses := by decide
    obtain ⟨recs, hk', ts', osSt', h1, h2, h3⟩ :=
      amLoop_append_ok osKey c pfx (b0 :: rest) 0 [] skippedDefault hok hskip
    have hc : ¬ b0.kind = BlockKind.chassis := by
      intro hkc
      rw [hkc] at hneed
      exact absurd hneed (by simp [needsRelField])
    obtain ⟨pv, hpv2⟩ := Option.isSome_iff_exists.mp hpv
    have hb : amLoop osKey c (b0 :: rest) hk' ts' osSt' = none := by
      rw [amLoop, if_neg hc, hpk]
      dsimp only
      simp only [hpv2, amStep_missing_rel osKey c b0 pv ts' osSt' hneed hrel]
    rw [hb] at h3
    unfold addModels
    rw [h3]
    rfl

/-- Witness for C10: a well-formed prefix followed by a log block carrying a
key but no `"test"` field. -/
theorem changeFieldPK_missing_field_partial_witness :
    changeFieldPK orphanLogBlock.relField 5 = none
    ∧ addModels (demoBlocks ++ orphanLogBlock :: []) 0 1 = none :=
  changeFieldPK_missing_field_partial demoBlocks [] orphanLogBlock 0 1 5 "4"
    (by decide) (by decide) rfl rfl (by decide)

/-! ## Claims C7 and C8: file discovery -/

/-- C7: a result file whose content carries the `File in database` trailer is
excluded from re-extraction — but, contrary to the claim, its chassis token
is dropped from the file-discovery output as well (the `continue` skips the
`inDB` and IP lines), so no chassis record is allocated for it: the merged
output holds only the date record. -/
theorem indb_file_token_dropped :
    getFilesAndIP [inDbFile] = ([], [], [])
    ∧ combine_results [("centos", [inDbFile])] "tags"
      = some [Rec.dateRec 1 "tags"] := by
  constructor <;> rfl

/-- C8: for a file whose name misses the `test_`/`.json` pattern, `getIP`
returns the int `-1` (modelled `none`); no sentinel token exists, and the
merge then aborts with a `TypeError` at `osName + ip` instead of
continuing. -/
theorem unmatched_name_aborts :
    getIP "results.txt" = none
    ∧ combine_results [("centos", [badNameFile])] "tags" = none := by
  constructor <;> rfl

/-! ## Claim C4: key uniqueness of the combined output -/

/-- Counterexample to C4 as stated: a single-OS run whose two (well-formed,
trivially duplicate-free) files slice to the same chassis token emits two
chassis records with the same key — the single-OS path never deduplicates
`all_chassis`, and the second allocation pass overwrites `chassis_key`. -/
theorem combine_results_duplicate_key :
    (combine_results [("centos", [cexFileA, cexFileB])] "tags").map
        (fun recs => recs.map Rec.pk) = some [5, 4, 4, 1]
    ∧ ¬ ([5, 4, 4, 1] : List Int).Nodup
    ∧ (processedLocals cexFileA.blocks).Nodup
    ∧ (processedLocals cexFileB.blocks).Nodup := by
  exact ⟨rfl, by decide, by decide, by decide⟩

/-! ## Claim C9: chassis deduplication across OSes -/

/-- C9: two result files from two different OSes naming the same chassis
token merge into exactly one chassis record, whose status is `worseStatus` of
the two per-OS folded statuses. -/
theorem combine_results_chassis_dedup (sA sB : String)
    (hA : sA ∈ possible_test_statuses) (hB : sB ∈ possible_test_statuses) :
    ∃ recs w,
      combine_results
        [("centos", [osAFile sA]), ("win10", [osBFile sB])] "tags"
        = some recs
      ∧ worseStatus sA sB = some w
      ∧ recs.filter (fun r =>
          match r with
          | Rec.chassisRec _ _ _ _ => true
          | _ => false) = [Rec.chassisRec 2 "" "192.168.101.1" w] := by
  fin_cases hA <;> fin_cases hB <;> exact ⟨_, _, rfl, rfl, rfl⟩

/-- Witness for C9 at the spec's own scenario (`Pass` under centos, `Error`
under win10). -/
theorem combine_results_chassis_dedup_witness :
    ∃ recs w,
      combine_results
        [("centos", [osAFile "Pass"]), ("win10", [osBFile "Error"])] "tags"
        = some recs
      ∧ worseStatus "Pass" "Error" = some w
      ∧ recs.filter (fun r =>
          match r with
          | Rec.chassisRec _ _ _ _ => true
          | _ => false) = [Rec.chassisRec 2 "" "192.168.101.1" w] :=
  combine_results_chassis_dedup "Pass" "Error" (by decide) (by decide)

/-! ## The pre-allocation invariant (claim C4) -/

theorem replaceOsStatus_pks (recs : List Rec) (key : Int) (v : String) :
    (replaceOsStatus recs key v).map Rec.pk = recs.map Rec.pk := by
  induction recs with
  | nil => rfl
  | cons r rest ih =>
    simp only [replaceOsStatus, List.map_cons] at ih ⊢
    congr 1
    cases r with
    | osRec pk ch os st => by_cases hpk : pk = key <;> simp [Rec.pk, hpk]
    | model pk kind osF relPK st => rfl
    | chassisRec pk nm ip st => rfl
    | dateRec pk tg => rfl

theorem allocOsStep_inv (ip : String) (acc : Alloc) (p : String × List String)
    (h : AllocInv acc) :
    AllocInv (allocOsStep ip acc p) ∧ acc.hk ≤ (allocOsStep ip acc p).hk := by
  unfold allocOsStep
  by_cases hin : ip ∈ p.2
  · rw [if_pos hin]
    have hdisj := List.disjoint_of_nodup_append h.valsNodup
    have hfreshC : acc.hk ∉ dVals acc.chassisKey := fun hm =>
      absurd (h.valsHi _ (List.mem_append_left _ hm)) (lt_irrefl _)
    have hfreshO : acc.hk ∉ dVals acc.osKey := fun hm =>
      absurd (h.valsHi _ (List.mem_append_right _ hm)) (lt_irrefl _)
    refine ⟨⟨h.ckeysNodup, dKeys_dSet_nodup _ _ _ h.okeysNodup, ?_, ?_, ?_,
      ?_⟩, ?_⟩
    · rw [List.nodup_append]
      refine ⟨h.valsNodup.of_append_left,
        dVals_dSet_nodup _ _ _ h.okeysNodup h.valsNodup.of_append_right
          hfreshO, ?_⟩
      intro x hx hx2
      rcases dVals_dSet_mem hx2 with h1 | h1
      · exact hdisj hx h1
      · exact hfreshC (h1 ▸ hx)
    · intro v hv
      rcases List.mem_append.mp hv with h1 | h1
      · exact h.valsLo _ (List.mem_append_left _ h1)
      · rcases dVals_dSet_mem h1 with h2 | h2
        · exact h.valsLo _ (List.mem_append_right _ h2)
        · rw [h2]; exact h.hkLo
    · intro v hv
      show v < acc.hk + 1
      rcases List.mem_append.mp hv with h1 | h1
      · have := h.valsHi _ (List.mem_append_left _ h1)
        linarith
      · rcases dVals_dSet_mem h1 with h2 | h2
        · have := h.valsHi _ (List.mem_append_right _ h2)
          linarith
        · rw [h2]
          linarith
    · show 2 ≤ acc.hk + 1
      have := h.hkLo
      linarith
    · show acc.hk ≤ acc.hk + 1
      linarith
  · rw [if_neg hin]
    exact ⟨h, le_refl _⟩

theorem allocOsFold_inv (ip : String) :
    ∀ (l : List (String × List String)) (a : Alloc), AllocInv a →
      AllocInv (l.foldl (allocOsStep ip) a) := by
  intro l
  induction l with
  | nil => intro a h; exact h
  | cons p rest ih =>
    intro a h
    simp only [List.foldl_cons]
    exact ih _ (allocOsStep_inv ip a p h).1

theorem allocStep_inv (ipsPerOs : List (String × List String)) (a : Alloc)
    (ip : String) (h : AllocInv a) : AllocInv (allocStep ipsPerOs a ip) := by
  unfold allocStep
  dsimp only
  apply allocOsFold_inv
  have hdisj := List.disjoint_of_nodup_append h.valsNodup
  have hfreshC : a.hk ∉ dVals a.chassisKey := fun hm =>
    absurd (h.valsHi _ (List.mem_append_left _ hm)) (lt_irrefl _)
  have hfreshO : a.hk ∉ dVals a.osKey := fun hm =>
    absurd (h.valsHi _ (List.mem_append_right _ hm)) (lt_irrefl _)
  refine ⟨dKeys_dSet_nodup _ _ _ h.ckeysNodup, h.okeysNodup, ?_, ?_, ?_, ?_⟩
  · rw [List.nodup_append]
    refine ⟨dVals_dSet_nodup _ _ _ h.ckeysNodup h.valsNodup.of_append_left
      hfreshC, h.valsNodup.of_append_right, ?_⟩
    intro x hx hx2
    rcases dVals_dSet_mem hx with h1 | h1
    · exact hdisj h1 hx2
    · exact hfreshO (h1 ▸ hx2)
  · intro v hv
    rcases List.mem_append.mp hv with h1 | h1
    · rcases dVals_dSet_mem h1 with h2 | h2
      · exact h.valsLo _ (List.mem_append_left _ h2)
      · rw [h2]; exact h.hkLo
    · exact h.valsLo _ (List.mem_append_right _ h1)
  · intro v hv
    show v < a.hk + 1
    rcases List.mem_append.mp hv with h1 | h1
    · rcases dVals_dSet_mem h1 with h2 | h2
      · have := h.valsHi _ (List.mem_append_left _ h2)
        linarith
      · rw [h2]
        linarith
    · have := h.valsHi _ (List.mem_append_right _ h1)
      linarith
  · show 2 ≤ a.hk + 1
    have := h.hkLo
    linarith

theorem allocInit_inv : AllocInv ⟨[], [], [], [], [], 2⟩ := by
  refine ⟨by simp [dKeys], by simp [dKeys], by simp [dVals],
    by simp [dVals], by simp [dVals], by norm_num⟩

theorem allocAll_inv (ipsPerOs : List (String × List String)) :
    ∀ (ips : List String) (a : Alloc), AllocInv a →
      AllocInv (ips.foldl (allocStep ipsPerOs) a) := by
  intro ips
  induction ips with
  | nil => intro a h; exact h
  | cons ip rest ih =>
    intro a h
    simp only [List.foldl_cons]
    exact ih _ (allocStep_inv ipsPerOs a ip h)

theorem allocAll_inv' (ipsPerOs : List (String × List String))
    (ips : List String) : AllocInv (allocAll ipsPerOs ips) :=
  allocAll_inv ipsPerOs ips _ allocInit_inv

/-! ## The per-file loop invariant (claim C4) -/

theorem fileStep_inv (al : Alloc) (inDb : List (String × Bool))
    (osName : String) (st : CombState) (f : RFile) (st' : CombState)
    (hloc : localsOk f)
    (h : fileStep al.chassisKey al.osKey inDb osName st f = some st')
    (hinv : LoopInv al st) : LoopInv al st' := by
  unfold fileStep at h
  split at h
  · simp only [Option.some_inj] at h
    subst h
    exact hinv
  · split at h
    · exact absurd h (by simp)
    · rename_i ip hip
      split at h
      · exact absurd h (by simp)
      · rename_i okey hokey
        split at h
        · exact absurd h (by simp)
        · rename_i recs hk' retSt retName hadd
          split at h
          · exact absurd h (by simp)
          · rename_i osCur hosCur
            split at h
            · exact absurd h (by simp)
            · rename_i osNew hosNew
              split at h
              · exact absurd h (by simp)
              · rename_i chCur hchCur
                split at h
                · exact absurd h (by simp)
                · rename_i chNew hchNew
                  split at h
                  · exact absurd h (by simp)
                  · rename_i trNew htrNew
                    split at h
                    · exact absurd h (by simp)
                    · rename_i ckey hckey
                      dsimp only at h
                      simp only [Option.some_inj] at h
                      subst h
                      obtain ⟨hlocN, hlocP⟩ := hloc
                      obtain ⟨hmap, hhk⟩ := addModels_rekey_offset
                        f.blocks st.hk okey recs hk' retSt retName hadd
                      have hM0 : (0 : Int) ≤
                          (processedLocals f.blocks).foldl
                            (fun a v => if v > a then v else a) 0 :=
                        foldlMax_le_init _ 0
                      have hstle : st.hk ≤ hk' := by rw [hhk]; linarith
                      have hnew : ∀ k ∈ recs.map Rec.pk,
                          st.hk < k ∧ k ≤ hk' := by
                        intro k hkm
                        rw [hmap] at hkm
                        obtain ⟨v, hv, rfl⟩ := List.mem_map.mp hkm
                        refine ⟨?_, ?_⟩
                        · have := hlocP v hv
                          linarith
                        · rw [hhk]
                          have := le_foldlMax_of_mem _ 0 v hv
                          linarith
                      have hnewNodup : (recs.map Rec.pk).Nodup := by
                        rw [hmap]
                        exact List.Nodup.map (add_left_injective _) hlocN
                      by_cases hcond :
                          (st.osObjs.all fun r => decide (¬ r.pk = okey))
                            = true
                      · rw [if_pos hcond]
                        refine ⟨?_, ?_, ?_, ?_, ?_, ?_⟩
                        · show al.hk ≤ hk'
                          have := hinv.hkMono
                          linarith
                        · intro k hkm
                          rw [List.map_append] at hkm
                          rcases List.mem_append.mp hkm with h1 | h1
                          · exact hinv.modelLo k h1
                          · have := (hnew k h1).1
                            have := hinv.hkMono
                            linarith
                        · intro k hkm
                          rw [List.map_append] at hkm
                          rcases List.mem_append.mp hkm with h1 | h1
                          · have := hinv.modelHi k h1
                            linarith
                          · exact (hnew k h1).2
                        · rw [List.map_append, List.nodup_append]
                          refine ⟨hinv.modelNodup, hnewNodup, ?_⟩
                          intro x hx hx2
                          have h1 := hinv.modelHi x hx
                          have h2 := (hnew x hx2).1
                          linarith
                        · intro k hkm
                          rw [List.map_append] at hkm
                          rcases List.mem_append.mp hkm with h1 | h1
                          · exact hinv.osSub k h1
                          · simp only [List.map_cons, List.map_nil,
                              List.mem_singleton, Rec.pk] at h1
                            exact h1 ▸ dFind_mem_dVals hokey
                        · rw [List.map_append, List.nodup_append]
                          refine ⟨hinv.osNodup, by simp, ?_⟩
                          intro x hx hx2
                          simp only [List.map_cons, List.map_nil,
                            List.mem_singleton, Rec.pk] at hx2
                          obtain ⟨r, hr, hrpk⟩ := List.mem_map.mp hx
                          have hone := List.all_eq_true.mp hcond r hr
                          simp only [decide_eq_true_eq] at hone
                          exact hone (hrpk.symm ▸ hx2 ▸ rfl)
                      · rw [if_neg hcond]
                        refine ⟨?_, ?_, ?_, ?_, ?_, ?_⟩
                        · show al.hk ≤ hk'
                          have := hinv.hkMono
                          linarith
                        · intro k hkm
                          rw [List.map_append] at hkm
                          rcases List.mem_append.mp hkm with h1 | h1
                          · exact hinv.modelLo k h1
                          · have := (hnew k h1).1
                            have := hinv.hkMono
                            linarith
                        · intro k hkm
                          rw [List.map_append] at hkm
                          rcases List.mem_append.mp hkm with h1 | h1
                          · have := hinv.modelHi k h1
                            linarith
                          · exact (hnew k h1).2
                        · rw [List.map_append, List.nodup_append]
                          refine ⟨hinv.modelNodup, hnewNodup, ?_⟩
                          intro x hx hx2
                          have h1 := hinv.modelHi x hx
                          have h2 := (hnew x hx2).1
                          linarith
                        · intro k hkm
                          rw [replaceOsStatus_pks] at hkm
                          exact hinv.osSub k hkm
                        · rw [replaceOsStatus_pks]
                          exact hinv.osNodup

theorem filesLoop_inv (al : Alloc) (inDb : List (String × Bool))
    (osName : String) :
    ∀ (files : List RFile) (st st' : CombState),
      (∀ f ∈ files, localsOk f) →
      filesLoop al.chassisKey al.osKey inDb osName st files = some st' →
      LoopInv al st → LoopInv al st' := by
  intro files
  induction files with
  | nil =>
    intro st st' _ h hinv
    simp only [filesLoop, Option.some_inj] at h
    subst h
    exact hinv
  | cons f rest ih =>
    intro st st' hl h hinv
    rw [filesLoop] at h
    split at h
    · exact absurd h (by simp)
    · rename_i st1 hstep
      exact ih st1 st' (fun g hg => hl g (List.mem_cons_of_mem _ hg)) h
        (fileStep_inv al inDb osName st f st1
          (hl f (List.mem_cons_self _ _)) hstep hinv)

theorem ossLoop_inv (al : Alloc) :
    ∀ (perOs :
        List (String × List RFile × List (String × Bool) × List String))
      (st st' : CombState),
      (∀ p ∈ perOs, ∀ f ∈ p.2.1, localsOk f) →
      ossLoop al.chassisKey al.osKey st perOs = some st' →
      LoopInv al st → LoopInv al st' := by
  intro perOs
  induction perOs with
  | nil =>
    intro st st' _ h hinv
    simp only [ossLoop, Option.some_inj] at h
    subst h
    exact hinv
  | cons p rest ih =>
    intro st st' hl h hinv
    rw [ossLoop] at h
    split at h
    · exact absurd h (by simp)
    · rename_i st1 hfl
      exact ih st1 st'
        (fun q hq g hg => hl q (List.mem_cons_of_mem _ hq) g hg) h
        (filesLoop_inv al p.2.2.1 p.1 p.2.1 st st1
          (hl p (List.mem_cons_self _ _)) hfl hinv)

/-! ## The chassis-emission loop (claim C4) -/

theorem chassisLoop_pks (ck : List (String × Int))
    (cs cn : List (String × String)) :
    ∀ (ips : List String) (l : List Rec),
      chassisLoop ck cs cn ips = some l →
      l.map Rec.pk = ips.map (fun ip => (dFind ck ip).getD 0)
      ∧ ∀ ip ∈ ips, (dFind ck ip).isSome = true := by
  intro ips
  induction ips with
  | nil =>
    intro l h
    simp only [chassisLoop, Option.some_inj] at h
    subst h
    simp
  | cons ip rest ih =>
    intro l h
    rw [chassisLoop] at h
    split at h
    · rename_i k s nm hk hs hnm
      rw [Option.map_eq_some'] at h
      obtain ⟨l0, hl0, rfl⟩ := h
      obtain ⟨h1, h2⟩ := ih l0 hl0
      constructor
      · simp only [List.map_cons, Rec.pk, h1, hk, Option.getD_some]
      · intro ip2 hip2
        rcases List.mem_cons.mp hip2 with rfl | hm
        · simp [hk]
        · exact h2 ip2 hm
    · exact absurd h (by simp)

/-! ## Assembling the combined output (claim C4) -/

theorem combine_assemble_nodup (al : Alloc)
    (perOs :
      List (String × List RFile × List (String × Bool) × List String))
    (allChassis : List String) (stF : CombState) (chRecs : List Rec)
    (tags : String)
    (hinvA : AllocInv al)
    (hchNodup : allChassis.Nodup)
    (hlocs : ∀ p ∈ perOs, ∀ f ∈ p.2.1, localsOk f)
    (hloop : ossLoop al.chassisKey al.osKey
      ⟨al.hk, al.osStatus, al.chassisStatus, al.chassisName,
        skippedDefault, [], []⟩ perOs = some stF)
    (hch : chassisLoop al.chassisKey stF.chassisStatus stF.chassisName
      allChassis = some chRecs) :
    ((stF.modelRecs ++ stF.osObjs ++ chRecs
      ++ [Rec.dateRec 1 tags]).map Rec.pk).Nodup := by
  have hinvL : LoopInv al
      ⟨al.hk, al.osStatus, al.chassisStatus, al.chassisName,
        skippedDefault, [], []⟩ := by
    refine ⟨le_refl _, ?_, ?_, ?_, ?_, ?_⟩ <;> simp
  have hinvF := ossLoop_inv al perOs _ stF hlocs hloop hinvL
  obtain ⟨hchPks, hchSome⟩ := chassisLoop_pks al.chassisKey
    stF.chassisStatus stF.chassisName allChassis chRecs hch
  have hchSub : ∀ k ∈ chRecs.map Rec.pk, k ∈ dVals al.chassisKey := by
    intro k hk
    rw [hchPks] at hk
    obtain ⟨ip, hip, hipk⟩ := List.mem_map.mp hk
    obtain ⟨kv, hkv⟩ := Option.isSome_iff_exists.mp (hchSome ip hip)
    rw [hkv] at hipk
    simp only [Option.getD_some] at hipk
    exact hipk ▸ dFind_mem_dVals hkv
  have hC : (chRecs.map Rec.pk).Nodup := by
    rw [hchPks]
    refine List.Nodup.map_on ?_ hchNodup
    intro x hx y hy hxy
    obtain ⟨kx, hkx⟩ := Option.isSome_iff_exists.mp (hchSome x hx)
    obtain ⟨ky, hky⟩ := Option.isSome_iff_exists.mp (hchSome y hy)
    rw [hkx, hky] at hxy
    simp only [Option.getD_some] at hxy
    by_contra hne
    exact dFind_inj hinvA.valsNodup.of_append_left hkx hky hne hxy
  have hvdisj := List.disjoint_of_nodup_append hinvA.valsNodup
  have hA := hinvF.modelNodup
  have hB := hinvF.osNodup
  have hAB : (stF.modelRecs.map Rec.pk).Disjoint
      (stF.osObjs.map Rec.pk) := by
    intro x hx hx2
    have h1 := hinvF.modelLo x hx
    have h2 := hinvA.valsHi x
      (List.mem_append_right _ (hinvF.osSub x hx2))
    linarith
  have hABn : (stF.modelRecs.map Rec.pk ++ stF.osObjs.map Rec.pk).Nodup :=
    List.nodup_append.mpr ⟨hA, hB, hAB⟩
  have hABC : ((stF.modelRecs.map Rec.pk ++ stF.osObjs.map Rec.pk)
      ++ chRecs.map Rec.pk).Nodup := by
    refine List.nodup_append.mpr ⟨hABn, hC, ?_⟩
    intro x hx hx2
    have hxc := hchSub x hx2
    rcases List.mem_append.mp hx with h1 | h1
    · have := hinvF.modelLo x h1
      have := hinvA.valsHi x (List.mem_append_left _ hxc)
      linarith
    · exact hvdisj hxc (hinvF.osSub x h1)
  rw [List.map_append, List.map_append, List.map_append]
  refine List.nodup_append.mpr ⟨hABC, by simp, ?_⟩
  intro x hx hx2
  simp only [List.map_cons, List.map_nil, List.mem_singleton, Rec.pk] at hx2
  subst hx2
  have h2le := hinvA.hkLo
  rcases List.mem_append.mp hx with h1 | h1
  · rcases List.mem_append.mp h1 with h3 | h3
    · have := hinvF.modelLo _ h3
      linarith
    · have := hinvA.valsLo _
        (List.mem_append_right _ (hinvF.osSub _ h3))
      linarith
  · have := hinvA.valsLo _ (List.mem_append_left _ (hchSub _ h1))
    linarith

/-- C4 (amended): after merging, no two records of the combined output share
a key, provided every input file's extracted local keys are pairwise distinct
and positive, and the discovered chassis-token list is duplicate-free (which
the set union guarantees whenever at least two OSes participate, but not for
a single-OS run whose files repeat a token). -/
theorem combine_results_key_uniqueness
    (oss : List (String × List RFile)) (tags : String) (recs : List Rec)
    (htok : (discoveredTokens oss).Nodup)
    (hloc : ∀ p ∈ oss, ∀ f ∈ p.2, localsOk f)
    (h : combine_results oss tags = some recs) :
    (recs.map Rec.pk).Nodup := by
  unfold combine_results at h
  split at h
  · simp only [Option.some_inj] at h
    subst h
    simp
  · dsimp only at h
    split at h
    · exact absurd h (by simp)
    · rename_i stF hloop
      split at h
      · exact absurd h (by simp)
      · rename_i chRecs hch
        simp only [Option.some_inj] at h
        subst h
        have htok2 :
            (buildUnion
              (((oss.map fun p => (p.1, getFilesAndIP p.2)).map
                fun p => (p.1, p.2.2.2)).map Prod.snd)).Nodup := by
          have hmm :
              ((oss.map fun p => (p.1, getFilesAndIP p.2)).map
                  fun p => (p.1, p.2.2.2)).map Prod.snd
                = oss.map fun p => (getFilesAndIP p.2).2.2 := by
            simp [List.map_map, Function.comp]
          rw [hmm]
          exact htok
        have hlocs2 :
            ∀ p ∈ (oss.map fun p => (p.1, getFilesAndIP p.2)),
              ∀ f ∈ p.2.1, localsOk f := by
          intro p hp f hf
          obtain ⟨q, hq, rfl⟩ := List.mem_map.mp hp
          have hf2 : f ∈ q.2 := by
            have hfil : (getFilesAndIP q.2).1
                = q.2.filter (fun g => !g.inDatabaseTrailer) := rfl
            rw [hfil] at hf
            exact List.mem_of_mem_filter hf
          exact hloc q hq f hf2
        exact combine_assemble_nodup _ _ _ _ _ _
          (allocAll_inv' _ _) htok2 hlocs2 hloop hch

/-- Witness for the amended C4 on a concrete two-file, two-OS run. -/
theorem combine_results_key_uniqueness_witness :
    (([Rec.model 6 BlockKind.test (some 3) none (some "Pass"),
       Rec.model 7 BlockKind.test (some 4) none (some "Error"),
       Rec.osRec 3 2 "centos" "Pass", Rec.osRec 4 2 "win10" "Error",
       Rec.chassisRec 2 "" "192.168.101.1" "Error",
       Rec.dateRec 1 "tags"] : List Rec).map Rec.pk).Nodup :=
  combine_results_key_uniqueness
    [("centos", [osAFile "Pass"]), ("win10", [osBFile "Error"])] "tags" _
    (by decide)
    (by
      intro p hp f hf
      fin_cases hp <;> fin_cases hf <;> exact ⟨by decide, by decide⟩)
    rfl

/-- Witness for C3 at a pair with exactly one recognized argument. -/
theorem worseStatus_invalid_handling_witness :
    (worseStatus "Garbage" "Pass" = none
        ↔ "Garbage" ∉ possible_test_statuses
          ∧ "Pass" ∉ possible_test_statuses)
    ∧ ("Garbage" ∈ possible_test_statuses →
        "Pass" ∉ possible_test_statuses →
        worseStatus "Garbage" "Pass" = some "Garbage")
    ∧ ("Garbage" ∉ possible_test_statuses →
        "Pass" ∈ possible_test_statuses →
        worseStatus "Garbage" "Pass" = some "Pass") :=
  worseStatus_invalid_handling "Garbage" "Pass"

end Tdown
